import Mathlib

/-!
Verification development for the SEO opportunity monitor (src/main.py).

The embedding below translates the Python classes `KeywordManager`,
`StateManager`, `ControlManager`, `TelegramCommandHandler` and
`RedditMonitor._process_submission` into executable Lean definitions.

Modelling conventions:
* Python strings are Lean `String`s; the character-level primitives
  (`str.lower`, `str.strip`, the substring operator `in`, and `re.search`
  over `\b`-anchored escaped literals) are modelled over `List Char`,
  with ASCII semantics (all keyword and text data relevant to the claims
  is ASCII).
* Timestamps (`time.time()`, message dates) are integers; the code only
  compares them, which integers preserve.
* `self.seen_posts : Dict[str, float]` is an association list with the
  Python-dict update rule: assignment to an existing key updates it in
  place, assignment to a fresh key appends.
* File I/O is passed in as data: a durable snapshot is
  `Option (Except Unit α)` — `none` when the file does not exist,
  `some (Except.error ())` when reading/parsing raises, `some (Except.ok a)`
  on success.
-/

/-! ## String primitives (models of the Python operations used by the code) -/

/-- Python `str.lower()` on the character list of a string (ASCII action). -/
def lowerData (s : String) : List Char := s.data.map Char.toLower

/-- Python `str.lower()` returning a string. -/
def strLower (s : String) : String := ⟨lowerData s⟩

/-- Python `str.strip()`: drop leading and trailing whitespace. -/
def pyStrip (s : String) : String :=
  ⟨((s.data.dropWhile Char.isWhitespace).reverse.dropWhile Char.isWhitespace).reverse⟩

/-- The literal `pat` occurs in `s` starting at index `i`. -/
def occursAt (pat s : List Char) (i : Nat) : Bool :=
  (s.drop i).take pat.length == pat

/-- Python's substring test `pat in s`. -/
def containsSub (s pat : List Char) : Bool :=
  (List.range (s.length + 1)).any (fun i => occursAt pat s i)

/-- A regex word character (`\w` restricted to ASCII): letter, digit or underscore. -/
def wordCharB (c : Char) : Bool := c.isAlphanum || c == '_'

/-- Whether index `i` of `s` holds a word character; out of range counts as non-word. -/
def wordCharAt (s : List Char) (i : Nat) : Bool :=
  match s[i]? with
  | some c => wordCharB c
  | none => false

/-- The regex assertion `\b` holds at position `i` of `s` (between `s[i-1]` and `s[i]`;
the positions before index 0 and after the end count as non-word). -/
def boundAt (s : List Char) (i : Nat) : Bool :=
  (if i = 0 then false else wordCharAt s (i - 1)) != wordCharAt s i

/-- Model of `re.search(r'\b' + re.escape(pat) + r'\b', s)`: some occurrence of the
literal `pat` in `s` is flanked by `\b` boundaries on both sides. -/
def hasBoundaryMatch (pat s : List Char) : Bool :=
  (List.range (s.length + 1)).any
    (fun i => occursAt pat s i && boundAt s i && boundAt s (i + pat.length))

/-! ## Constants from src/main.py -/

/-- `SPAM_KEYWORDS` from the configuration section of src/main.py. -/
def SPAM_KEYWORDS : List String :=
  ["buy cheap", "discount", "promo code", "referral link", "sign up bonus",
   "affiliate", "click here", "limited offer", "get paid", "earn money fast",
   "make money", "guaranteed profit", "trading signals", "pump and dump",
   "moonshot", "lambo", "[STORE]", "[SELLING]", "[AD]", "DM me",
   "telegram group", "buy now", "sale", "shop", "coupon", "deal"]

/-- `COMPETITORS` flattened in `dict.values()` insertion order (international,
indian, dex), as `_build_patterns` does with `all_competitors.extend`. -/
def ALL_COMPETITORS : List String :=
  ["Binance", "Coinbase", "Kraken", "Crypto.com", "Gemini", "KuCoin",
   "OKX", "Bybit", "MEXC", "Uphold", "Bitfinex", "Bitmart", "Bitstamp",
   "CoinDCX", "Mudrex", "CoinSwitch", "ZebPay", "Unocoin", "Bitbns", "WazirX",
   "Uniswap", "PancakeSwap", "dYdX", "Curve Finance", "DODO", "KyberSwap"]

/-- `india_terms` from `KeywordManager._build_patterns`. -/
def INDIA_TERMS : List String :=
  ["india", "indian", "inr", "rupee", "delhi", "mumbai",
   "bangalore", "bengaluru", "kolkata", "chennai", "hyderabad"]

/-- `MAX_POST_AGE_HOURS` from the configuration section. -/
def MAX_POST_AGE_HOURS : Int := 24

/-! ## KeywordManager -/

/-- The matcher state held by a `KeywordManager` instance: the two keyword tiers
(term, volume) and the term lists from which `_build_patterns` compiles the
competitor and india regexes (competitor terms already lowercased, as in
`re.escape(c.lower())`). -/
structure KeywordManager where
  primary_keywords : List (String × Int)
  secondary_keywords : List (String × Int)
  competitor_terms : List String
  india_terms : List String
deriving DecidableEq

/-- A `KeywordManager` with the given tiers and the fixed competitor/india
rosters, as produced by `KeywordManager.__init__`/`_build_patterns`. -/
def mkKeywordManager (primary secondary : List (String × Int)) : KeywordManager :=
  ⟨primary, secondary, ALL_COMPETITORS.map strLower, INDIA_TERMS⟩

/-- The per-keyword test of `find_matches`: keywords of length at most 3 go
through `re.search(r'\b' + re.escape(keyword) + r'\b', text_lower)`, longer
keywords through `keyword in text_lower`. -/
def matchKeyword (kw : String) (tl : List Char) : Bool :=
  if kw.length ≤ 3 then hasBoundaryMatch kw.data tl
  else containsSub tl kw.data

/-- The primary-keyword loop of `find_matches`: each matching keyword is appended
to `matched_keywords` and sets `keyword_priority = "primary"`. -/
def primaryScan (ks : List (String × Int)) (tl : List Char) (acc : List String)
    (prio : String) : List String × String :=
  match ks with
  | [] => (acc, prio)
  | (kw, _) :: rest =>
      if matchKeyword kw tl then primaryScan rest tl (acc ++ [kw]) "primary"
      else primaryScan rest tl acc prio

/-- The secondary-keyword loop of `find_matches`: keywords already in
`matched_keywords` are skipped, matching ones are appended. -/
def secondaryScan (ks : List (String × Int)) (tl : List Char) (acc : List String) :
    List String :=
  match ks with
  | [] => acc
  | (kw, _) :: rest =>
      if acc.contains kw then secondaryScan rest tl acc
      else if matchKeyword kw tl then secondaryScan rest tl (acc ++ [kw])
      else secondaryScan rest tl acc

/-- The 4-tuple returned by `KeywordManager.find_matches`.  `matched_competitors`
in the source is `list(set(findall(...)))`, whose order Python does not specify;
it is modelled here as the lowercased roster terms that have a `\b`-anchored
occurrence, which has the same set of elements. -/
structure MatchResult where
  matched_keywords : List String
  matched_competitors : List String
  keyword_priority : String
  india_related : Bool
deriving DecidableEq

/-- `KeywordManager.find_matches`.  The argument is `Option String` because the
Python parameter may be `None`; `if not text` is true exactly on `None` and `""`.
The secondary tier is capped at 200 terms (`self.secondary_keywords[:200]`), the
competitor and india scans are case-insensitive `\b`-anchored searches. -/
def findMatches (km : KeywordManager) (text : Option String) : MatchResult :=
  match text with
  | none => ⟨[], [], "secondary", false⟩
  | some t =>
    if t = "" then ⟨[], [], "secondary", false⟩
    else
      { matched_keywords :=
          secondaryScan (km.secondary_keywords.take 200) (lowerData t)
            (primaryScan km.primary_keywords (lowerData t) [] "secondary").1
        matched_competitors :=
          km.competitor_terms.filter (fun c => hasBoundaryMatch c.data (lowerData t))
        keyword_priority :=
          (primaryScan km.primary_keywords (lowerData t) [] "secondary").2
        india_related :=
          km.india_terms.any (fun w => hasBoundaryMatch w.data (lowerData t)) }

/-- `KeywordManager.is_spam`: case-insensitive containment of any spam phrase. -/
def isSpam (text : String) : Bool :=
  SPAM_KEYWORDS.any (fun k => containsSub (lowerData text) (lowerData k))

/-- The keyword terms in the order `find_matches` scans them: the primary tier
followed by the first 200 secondary terms. -/
def scanTerms (km : KeywordManager) : List String :=
  km.primary_keywords.map Prod.fst ++ (km.secondary_keywords.take 200).map Prod.fst

/-! ## StateManager (the seen-item ledger) -/

/-- `post_id in self.seen_posts`. -/
def isSeen (seen : List (String × Int)) (pid : String) : Bool :=
  seen.any (fun p => p.1 == pid)

/-- `StateManager.mark_seen`: `self.seen_posts[post_id] = time.time()` — the
Python-dict assignment updates an existing key in place and appends a fresh one.
No capacity check and no eviction appear in the source. -/
def markSeen (seen : List (String × Int)) (pid : String) (t : Int) :
    List (String × Int) :=
  if seen.any (fun p => p.1 == pid) then
    seen.map (fun p => if p.1 == pid then (pid, t) else p)
  else seen ++ [(pid, t)]

/-- A sequence of `mark_seen` calls, each `(post_id, time)`. -/
def markSeenSeq (calls : List (String × Int)) (seen : List (String × Int)) :
    List (String × Int) :=
  calls.foldl (fun acc c => markSeen acc c.1 c.2) seen

/-- `StateManager.load_state`: a missing file or a read/parse error leaves
`seen_posts = {}`; a loaded snapshot is filtered by
`timestamp > time.time() - MAX_POST_AGE_HOURS * 3600`. -/
def loadState (file : Option (Except Unit (List (String × Int)))) (now : Int) :
    List (String × Int) :=
  match file with
  | none => []
  | some (Except.error _) => []
  | some (Except.ok data) =>
      data.filter (fun p => now - MAX_POST_AGE_HOURS * 3600 < p.2)

/-! ## ControlManager -/

/-- The state held by a `ControlManager` instance. -/
structure ControlState where
  is_running : Bool
  last_command : String
  last_command_time : Int
deriving DecidableEq

/-- `ControlManager.start`. -/
def ControlState.start (_c : ControlState) (now : Int) : ControlState :=
  ⟨true, "start", now⟩

/-- `ControlManager.stop`. -/
def ControlState.stop (_c : ControlState) (now : Int) : ControlState :=
  ⟨false, "stop", now⟩

/-- `ControlManager.should_run`. -/
def ControlState.should_run (c : ControlState) : Bool := c.is_running

/-- The parsed content of `monitor_control.json`; each field may be absent
(`data.get(key, default)`). -/
structure ControlData where
  is_running : Option Bool
  last_command : Option String
  last_command_time : Option Int

/-- `ControlManager.__init__` followed by `load_control`: the fields start as
`(True, 'start', now)`; a missing file keeps them, a successful load takes the
stored values with those defaults, and a load error resets `is_running = True`. -/
def initControl (file : Option (Except Unit ControlData)) (now : Int) : ControlState :=
  match file with
  | none => ⟨true, "start", now⟩
  | some (Except.error _) => ⟨true, "start", now⟩
  | some (Except.ok d) =>
      ⟨d.is_running.getD true, d.last_command.getD "start", d.last_command_time.getD now⟩

/-! ## TelegramCommandHandler -/

/-- One Telegram update as read by `check_commands`: `update_id`,
`str(message.chat.id)`, `message.text` and `message.date`. -/
structure TgUpdate where
  update_id : Int
  chat_id : String
  text : String
  message_time : Int

/-- The mutable state of `TelegramCommandHandler` relevant to command handling,
together with the `ControlManager` it drives. -/
structure HandlerState where
  last_update_id : Int
  last_command_time : Int
  processed_update_ids : List Int
  control : ControlState
deriving DecidableEq

/-- The externally visible handling steps of `check_commands`: the four command
handlers plus the "already running"/"already stopped" notices. -/
inductive CmdAction where
  | alreadyRunning
  | handledStart
  | alreadyStopped
  | handledStop
  | handledStatus
  | handledHelp
deriving DecidableEq

/-- `message.get('text', '').strip().lower()`. -/
def normText (s : String) : String := strLower (pyStrip s)

/-- The bookkeeping `check_commands` performs on every non-duplicate update
before any check: record the update id as processed and advance
`last_update_id`. -/
def bookkeep (st : HandlerState) (uid : Int) : HandlerState :=
  { st with processed_update_ids := uid :: st.processed_update_ids,
            last_update_id := uid }

/-- One iteration of the update loop in `TelegramCommandHandler.check_commands`:
duplicate update ids are skipped; otherwise the update is recorded, then
foreign-chat and stale-timestamp updates are skipped; recognized commands are
dispatched (start/stop first consult `control.is_running`), and
`last_command_time` advances to the message time for every update that passes
the checks. -/
def processUpdate (expectedChat : String) (now : Int) (st : HandlerState)
    (u : TgUpdate) : HandlerState × List CmdAction :=
  if st.processed_update_ids.contains u.update_id then (st, [])
  else if u.chat_id ≠ expectedChat then (bookkeep st u.update_id, [])
  else if u.message_time ≤ (bookkeep st u.update_id).last_command_time then
    (bookkeep st u.update_id, [])
  else if normText u.text = "/start" ∨ normText u.text = "start" then
    if (bookkeep st u.update_id).control.is_running then
      (bookkeep st u.update_id, [CmdAction.alreadyRunning])
    else
      ({ bookkeep st u.update_id with
          control := (bookkeep st u.update_id).control.start now,
          last_command_time := u.message_time }, [CmdAction.handledStart])
  else if normText u.text = "/stop" ∨ normText u.text = "stop" then
    if (bookkeep st u.update_id).control.is_running then
      ({ bookkeep st u.update_id with
          control := (bookkeep st u.update_id).control.stop now,
          last_command_time := u.message_time }, [CmdAction.handledStop])
    else
      (bookkeep st u.update_id, [CmdAction.alreadyStopped])
  else if normText u.text = "/status" ∨ normText u.text = "status" then
    ({ bookkeep st u.update_id with last_command_time := u.message_time },
     [CmdAction.handledStatus])
  else if normText u.text = "/help" ∨ normText u.text = "help" ∨
      normText u.text = "/commands" then
    ({ bookkeep st u.update_id with last_command_time := u.message_time },
     [CmdAction.handledHelp])
  else
    ({ bookkeep st u.update_id with last_command_time := u.message_time }, [])

/-! ## RedditMonitor._process_submission -/

/-- The text fields of a submission after the `str(...) if ... else ""`
coercions in `_process_submission`. -/
structure Submission where
  title : String
  selftext : String

/-- `text = f"{title} {selftext}".strip()`. -/
def subText (sub : Submission) : String :=
  pyStrip (sub.title ++ " " ++ sub.selftext)

/-- The ledger-and-return behaviour of `RedditMonitor._process_submission`:
empty text returns `False` untouched; spam is marked seen and dropped; an empty
match result (`not (keywords or competitors)`) returns `False` without marking;
a hit is marked seen and returns `True`.  (Alerting and stats do not touch the
ledger and are not modelled.) -/
def processSubmission (km : KeywordManager) (seen : List (String × Int))
    (sub : Submission) (now : Int) (pid : String) : Bool × List (String × Int) :=
  if subText sub = "" then (false, seen)
  else if isSpam (subText sub) then (false, markSeen seen pid now)
  else if (findMatches km (some (subText sub))).matched_keywords.isEmpty
      && (findMatches km (some (subText sub))).matched_competitors.isEmpty then
    (false, seen)
  else (true, markSeen seen pid now)

/-! ## Spec-side predicates for the word-boundary claim

`claimShortOk` is modelled from the spec claim's wording, for comparison with
the code's `\b` rule: it asserts some occurrence of the keyword whose
immediately adjacent characters, when they exist, are non-alphanumeric. -/

/-- Index `i` of `s` is out of range or holds a non-alphanumeric character
("the character immediately before/after the match, if any, is
non-alphanumeric"). -/
def nonAlnumAt (s : List Char) (i : Nat) : Bool :=
  match s[i]? with
  | some c => !c.isAlphanum
  | none => true

/-- Modelled from the spec: some occurrence of `pat` in `s` has a
non-alphanumeric (or absent) character immediately before and after it. -/
def claimShortOk (pat s : List Char) : Bool :=
  (List.range (s.length + 1)).any (fun i =>
    occursAt pat s i && (i == 0 || nonAlnumAt s (i - 1)) && nonAlnumAt s (i + pat.length))

/-- The first and last characters of `pat` are regex word characters (the shape
every real keyword has; the amended boundary claim is restricted to it). -/
def edgeOk (pat : List Char) : Bool :=
  match pat.head?, pat.getLast? with
  | some a, some b => wordCharB a && wordCharB b
  | _, _ => false

/-! ## Concrete instances used by witnesses and counterexamples -/

/-- Matcher with primary tier `{"bitcoin"}` and secondary tier `{"wallet"}`. -/
def kmBitcoinWallet : KeywordManager :=
  mkKeywordManager [("bitcoin", 1000)] [("wallet", 500)]

/-- Matcher whose only keyword is the short keyword `"api"`. -/
def kmApi : KeywordManager := mkKeywordManager [("api", 100)] []

/-- Matcher whose only keyword is the short keyword `".x"` (a two-character
term, which `_process_keywords` accepts). -/
def kmDot : KeywordManager := mkKeywordManager [(".x", 0)] []

/-- The id used for the unbounded-ledger counterexample: `n` repetitions of
`'a'`, so distinct `n` give distinct ids. -/
def padId (n : Nat) : String := ⟨List.replicate n 'a'⟩

/-- `k` mark_seen calls on pairwise distinct ids at increasing times. -/
def distinctCalls (k : Nat) : List (String × Int) :=
  (List.range k).map (fun i => (padId i, (i : Int)))

/-! ## The keyword builder (`_process_keywords`)

The builder justifies the no-duplicate-terms hypothesis used for the
matched-keywords claims: the dict `kw_dict` dedups terms, and tier splitting
only slices the sorted list. -/

/-- The row normalization in `_process_keywords`: `str(row).strip().lower()`,
discarding empty terms, single-character terms and the `'nan'` sentinel. -/
def normalizeRows (rows : List (String × Int)) : List (String × Int) :=
  (rows.map (fun r => (strLower (pyStrip r.1), r.2))).filter
    (fun p => !(p.1 == "" || decide (p.1.length ≤ 1) || p.1 == "nan"))

/-- One iteration of the dedup loop: `if kw not in kw_dict or vol > kw_dict[kw]:
kw_dict[kw] = vol` with Python-dict assignment semantics. -/
def kwDictStep (d : List (String × Int)) (p : String × Int) : List (String × Int) :=
  match d.find? (fun q => q.1 == p.1) with
  | none => d ++ [p]
  | some q => if q.2 < p.2 then d.map (fun r => if r.1 == p.1 then p else r) else d

/-- `kw_dict` after the dedup loop over all normalized rows. -/
def buildKwDict (pairs : List (String × Int)) : List (String × Int) :=
  pairs.foldl kwDictStep []

/-- `sorted(kw_dict.items(), key=lambda x: x[1], reverse=True)`: a stable sort
by descending volume. -/
def processKeywords (rows : List (String × Int)) : List (String × Int) :=
  List.mergeSort (buildKwDict (normalizeRows rows)) (fun a b => decide (b.2 ≤ a.2))

/-- The `KeywordManager` built from keyword-file rows: the top 10 terms by
volume are the primary tier, the rest the secondary tier. -/
def builtKeywordManager (rows : List (String × Int)) : KeywordManager :=
  mkKeywordManager ((processKeywords rows).take 10) ((processKeywords rows).drop 10)

/-! ## Ledger lemmas -/

theorem isSeen_markSeen_self (s : List (String × Int)) (pid : String) (t : Int) :
    isSeen (markSeen s pid t) pid = true := by
  unfold isSeen markSeen
  by_cases h : s.any (fun p => p.1 == pid) = true
  · rw [if_pos h]
    rw [List.any_eq_true] at h ⊢
    obtain ⟨p, hp, hpe⟩ := h
    exact ⟨(pid, t), List.mem_map.mpr ⟨p, hp, by simp [hpe]⟩, by simp⟩
  · rw [if_neg h]
    simp

theorem markSeen_length_le (s : List (String × Int)) (pid : String) (t : Int) :
    (markSeen s pid t).length ≤ s.length + 1 := by
  unfold markSeen
  split
  · simp
  · simp

theorem markSeen_length_of_seen (s : List (String × Int)) (pid : String) (t : Int)
    (h : isSeen s pid = true) : (markSeen s pid t).length = s.length := by
  unfold isSeen at h
  unfold markSeen
  rw [if_pos h]
  simp

theorem markSeen_length_of_fresh (s : List (String × Int)) (pid : String) (t : Int)
    (h : isSeen s pid = false) : (markSeen s pid t).length = s.length + 1 := by
  unfold isSeen at h
  unfold markSeen
  rw [if_neg (by simp [h])]
  simp

theorem isSeen_markSeen_mono (s : List (String × Int)) (pid x : String) (t : Int)
    (h : isSeen s x = true) : isSeen (markSeen s pid t) x = true := by
  unfold isSeen at h ⊢
  unfold markSeen
  split
  · rw [List.any_eq_true] at h ⊢
    obtain ⟨p, hp, hpx⟩ := h
    by_cases hpp : (p.1 == pid) = true
    · have hx : p.1 = x := by simpa using hpx
      have hpid : p.1 = pid := by simpa using hpp
      exact ⟨(pid, t), List.mem_map.mpr ⟨p, hp, by simp [hpp]⟩,
        by simp [← hpid, hx]⟩
    · exact ⟨p, List.mem_map.mpr ⟨p, hp, by simp [hpp]⟩, hpx⟩
  · simp only [List.any_append, h, Bool.true_or]

theorem isSeen_markSeen_other (s : List (String × Int)) (pid x : String) (t : Int)
    (hx : x ≠ pid) (h : isSeen s x = false) : isSeen (markSeen s pid t) x = false := by
  unfold isSeen at h ⊢
  unfold markSeen
  rw [List.any_eq_false] at h
  split
  · rw [List.any_eq_false]
    intro q hq
    obtain ⟨p, hp, rfl⟩ := List.mem_map.mp hq
    by_cases hpp : (p.1 == pid) = true
    · simp [hpp, Ne.symm hx]
    · simpa [hpp] using h p hp
  · rw [List.any_eq_false]
    intro q hq
    rcases List.mem_append.mp hq with hq | hq
    · exact h q hq
    · simp at hq
      simp [hq, Ne.symm hx]

theorem markSeenSeq_cons (c : String × Int) (calls : List (String × Int))
    (s : List (String × Int)) :
    markSeenSeq (c :: calls) s = markSeenSeq calls (markSeen s c.1 c.2) := rfl

theorem isSeen_markSeenSeq_mono (calls : List (String × Int))
    (s : List (String × Int)) (x : String) (h : isSeen s x = true) :
    isSeen (markSeenSeq calls s) x = true := by
  induction calls generalizing s with
  | nil => exact h
  | cons c rest ih => exact ih _ (isSeen_markSeen_mono s c.1 x c.2 h)

theorem isSeen_markSeenSeq_of_mem (calls : List (String × Int))
    (s : List (String × Int)) (c : String × Int) (hc : c ∈ calls) :
    isSeen (markSeenSeq calls s) c.1 = true := by
  induction calls generalizing s with
  | nil => cases hc
  | cons d rest ih =>
      rcases List.mem_cons.mp hc with rfl | hmem
      · exact isSeen_markSeenSeq_mono rest _ _ (isSeen_markSeen_self s c.1 c.2)
      · exact ih _ hmem

theorem markSeenSeq_length_of_fresh (calls : List (String × Int))
    (s : List (String × Int)) (hnd : (calls.map Prod.fst).Nodup)
    (hfresh : ∀ c ∈ calls, isSeen s c.1 = false) :
    (markSeenSeq calls s).length = s.length + calls.length := by
  induction calls generalizing s with
  | nil => simp [markSeenSeq]
  | cons c rest ih =>
      rw [List.map_cons, List.nodup_cons] at hnd
      have h1 : isSeen s c.1 = false := hfresh c (by simp)
      have hfresh2 : ∀ d ∈ rest, isSeen (markSeen s c.1 c.2) d.1 = false := by
        intro d hd
        refine isSeen_markSeen_other s c.1 d.1 c.2 ?_ (hfresh d (by simp [hd]))
        intro hEq
        exact hnd.1 (hEq ▸ List.mem_map_of_mem Prod.fst hd)
      rw [markSeenSeq_cons, ih _ hnd.2 hfresh2, markSeen_length_of_fresh s c.1 c.2 h1]
      simp
      omega

theorem padId_injective : Function.Injective padId := by
  intro m n h
  have := congrArg (fun s => s.data.length) h
  simpa [padId] using this

theorem distinctCalls_fst_nodup (k : Nat) : ((distinctCalls k).map Prod.fst).Nodup := by
  unfold distinctCalls
  rw [List.map_map]
  exact List.Nodup.map (fun m n h => padId_injective h) (List.nodup_range k)

theorem distinctCalls_length (k : Nat) : (distinctCalls k).length = k := by
  simp [distinctCalls]

/-- C1 counterexample: the claim asserts a fixed capacity bound on the ledger,
but `mark_seen` is a plain dict insert — for every candidate capacity `C`,
marking `C + 1` distinct ids from the empty ledger yields `C + 1` entries, so
no capacity bounds the entry count (and in particular no id is ever evicted). -/
theorem mark_seen_unbounded_counterexample :
    ¬ ∃ C : Nat, ∀ calls : List (String × Int), (markSeenSeq calls []).length ≤ C := by
  rintro ⟨C, h⟩
  have hlen : (markSeenSeq (distinctCalls (C + 1)) []).length = C + 1 := by
    rw [markSeenSeq_length_of_fresh (distinctCalls (C + 1)) []
      (distinctCalls_fst_nodup _) (fun c _ => rfl)]
    simp [distinctCalls_length]
  have hC := h (distinctCalls (C + 1))
  omega

/-- C1 (amended): the Seen-Item Ledger is unbounded — `mark_seen` inserts or
refreshes with no capacity check and never evicts: after any sequence of
`mark_seen` calls every marked id still satisfies `is_seen = true`, and marking
`n` distinct ids from an empty ledger yields exactly `n` entries. -/
theorem mark_seen_no_eviction :
    (∀ (s calls : List (String × Int)) (c : String × Int),
        c ∈ calls → isSeen (markSeenSeq calls s) c.1 = true) ∧
    (∀ calls : List (String × Int), (calls.map Prod.fst).Nodup →
        (markSeenSeq calls []).length = calls.length) := by
  constructor
  · intro s calls c hc
    exact isSeen_markSeenSeq_of_mem calls s c hc
  · intro calls h
    rw [markSeenSeq_length_of_fresh calls [] h (fun c _ => rfl)]
    simp

/-- Witness for the amended C1 at a concrete call sequence. -/
theorem mark_seen_no_eviction_witness :
    isSeen (markSeenSeq [("a", 0), ("b", 1)] []) "a" = true ∧
    (markSeenSeq [("a", 0), ("b", 1)] []).length = 2 :=
  ⟨mark_seen_no_eviction.1 [] [("a", 0), ("b", 1)] ("a", 0) (by decide),
   mark_seen_no_eviction.2 [("a", 0), ("b", 1)] (by decide)⟩

/-- C5: immediately after `load_state`, no entry whose timestamp is older than
24 hours relative to load time is present — the load filter keeps only entries
with `timestamp > now - MAX_POST_AGE_HOURS * 3600`. -/
theorem load_state_retention (file : Option (Except Unit (List (String × Int))))
    (now : Int) (e : String × Int) (h : e ∈ loadState file now) :
    ¬ (e.2 < now - MAX_POST_AGE_HOURS * 3600) := by
  match file with
  | none => simp [loadState] at h
  | some (Except.error u) => simp [loadState] at h
  | some (Except.ok data) =>
      simp only [loadState] at h
      have hf := List.of_mem_filter h
      simp only [decide_eq_true_eq] at hf
      omega

/-- Witness for C5 at a concrete snapshot: the fresh entry survives the load
filter and is indeed not older than the retention window. -/
theorem load_state_retention_witness :
    ¬ ((("fresh", (100000 : Int)) : String × Int).2 <
        100000 - MAX_POST_AGE_HOURS * 3600) :=
  load_state_retention (some (Except.ok [("stale", 0), ("fresh", 100000)])) 100000
    ("fresh", 100000) (by decide)

/-- C6: `find_matches` on absent (`None`) or empty text returns the zero result:
no keywords, no competitors, priority `"secondary"`, no india flag — and being a
total function it raises nothing. -/
theorem find_matches_empty_text_zero (km : KeywordManager) :
    findMatches km none = ⟨[], [], "secondary", false⟩ ∧
    findMatches km (some "") = ⟨[], [], "secondary", false⟩ :=
  ⟨rfl, by simp [findMatches]⟩

/-- C7: `mark_seen` is idempotent in membership and size: after marking an id
once or twice `is_seen` is true, and the two calls together grow the ledger by
at most one entry. -/
theorem mark_seen_idempotent (s : List (String × Int)) (pid : String) (t₁ t₂ : Int) :
    isSeen (markSeen s pid t₁) pid = true ∧
    isSeen (markSeen (markSeen s pid t₁) pid t₂) pid = true ∧
    (markSeen (markSeen s pid t₁) pid t₂).length ≤ s.length + 1 := by
  refine ⟨isSeen_markSeen_self s pid t₁, isSeen_markSeen_self _ pid t₂, ?_⟩
  have h1 := markSeen_length_of_seen (markSeen s pid t₁) pid t₂
    (isSeen_markSeen_self s pid t₁)
  have h2 := markSeen_length_le s pid t₁
  omega

/-- C10: with no control file, or when loading it fails, the control state
initializes with `is_running = true`, so `should_run()` returns true without any
start command having been received. -/
theorem control_defaults_running (now : Int) :
    (initControl none now).should_run = true ∧
    (initControl (some (Except.error ())) now).should_run = true :=
  ⟨rfl, rfl⟩

/-! ## Scan lemmas for find_matches -/

theorem primaryScan_fst (ks : List (String × Int)) (tl : List Char) (acc : List String)
    (prio : String) :
    (primaryScan ks tl acc prio).1 =
      acc ++ (ks.map Prod.fst).filter (fun kw => matchKeyword kw tl) := by
  induction ks generalizing acc prio with
  | nil => simp [primaryScan]
  | cons kv rest ih =>
      obtain ⟨kw, v⟩ := kv
      by_cases h : matchKeyword kw tl = true
      · simp [primaryScan, h, ih]
      · simp [primaryScan, h, ih]

theorem primaryScan_snd (ks : List (String × Int)) (tl : List Char) (acc : List String)
    (prio : String) :
    (primaryScan ks tl acc prio).2 =
      if (ks.map Prod.fst).any (fun kw => matchKeyword kw tl) then "primary" else prio := by
  induction ks generalizing acc prio with
  | nil => simp [primaryScan]
  | cons kv rest ih =>
      obtain ⟨kw, v⟩ := kv
      by_cases h : matchKeyword kw tl = true
      · simp [primaryScan, h, ih]
      · have hf : matchKeyword kw tl = false := Bool.eq_false_iff.mpr h
        rw [List.map_cons, List.any_cons, hf, Bool.false_or]
        simp [primaryScan, hf, ih]

theorem secondaryScan_mem (ks : List (String × Int)) (tl : List Char)
    (acc : List String) (x : String) :
    x ∈ secondaryScan ks tl acc ↔
      x ∈ acc ∨ (x ∈ ks.map Prod.fst ∧ matchKeyword x tl = true) := by
  induction ks generalizing acc with
  | nil => simp [secondaryScan]
  | cons kv rest ih =>
      obtain ⟨kw, v⟩ := kv
      by_cases hc : acc.contains kw = true
      · have hmem : kw ∈ acc := List.mem_of_elem_eq_true hc
        simp only [secondaryScan, hc, if_true, ih, List.map_cons, List.mem_cons]
        constructor
        · rintro (h | ⟨h1, h2⟩)
          · exact Or.inl h
          · exact Or.inr ⟨Or.inr h1, h2⟩
        · rintro (h | ⟨h1 | h1, h2⟩)
          · exact Or.inl h
          · exact Or.inl (h1 ▸ hmem)
          · exact Or.inr ⟨h1, h2⟩
      · by_cases hm : matchKeyword kw tl = true
        · simp only [secondaryScan, hc, if_false, Bool.false_eq_true, hm, if_true, ih,
            List.map_cons, List.mem_cons, List.mem_append, List.mem_singleton,
            List.not_mem_nil, or_false]
          constructor
          · rintro ((h | h) | ⟨h1, h2⟩)
            · exact Or.inl h
            · exact Or.inr ⟨Or.inl h, h ▸ hm⟩
            · exact Or.inr ⟨Or.inr h1, h2⟩
          · rintro (h | ⟨h1 | h1, h2⟩)
            · exact Or.inl (Or.inl h)
            · exact Or.inl (Or.inr h1)
            · exact Or.inr ⟨h1, h2⟩
        · simp only [secondaryScan, hc, if_false, Bool.false_eq_true, hm, ih,
            List.map_cons, List.mem_cons]
          constructor
          · rintro (h | ⟨h1, h2⟩)
            · exact Or.inl h
            · exact Or.inr ⟨Or.inr h1, h2⟩
          · rintro (h | ⟨h1 | h1, h2⟩)
            · exact Or.inl h
            · exact absurd (h1 ▸ h2) hm
            · exact Or.inr ⟨h1, h2⟩

theorem secondaryScan_eq (ks : List (String × Int)) (tl : List Char) (acc : List String)
    (hnd : (ks.map Prod.fst).Nodup) (hdis : ∀ kw ∈ ks.map Prod.fst, kw ∉ acc) :
    secondaryScan ks tl acc =
      acc ++ (ks.map Prod.fst).filter (fun kw => matchKeyword kw tl) := by
  induction ks generalizing acc with
  | nil => simp [secondaryScan]
  | cons kv rest ih =>
      obtain ⟨kw, v⟩ := kv
      rw [List.map_cons, List.nodup_cons] at hnd
      have hkw : kw ∉ acc := hdis kw (by simp)
      have hc : ¬ (acc.contains kw = true) := fun hcc => hkw (List.mem_of_elem_eq_true hcc)
      by_cases hm : matchKeyword kw tl = true
      · have hdis2 : ∀ k ∈ rest.map Prod.fst, k ∉ acc ++ [kw] := by
          intro k hk
          simp only [List.mem_append, List.mem_singleton]
          rintro (h | rfl)
          · exact hdis k (by simp [hk]) h
          · exact hnd.1 hk
        simp only [secondaryScan, hc, if_false, Bool.false_eq_true, hm, if_true,
          ih (acc ++ [kw]) hnd.2 hdis2, List.map_cons]
        simp [hm, List.append_assoc]
      · have hdis2 : ∀ k ∈ rest.map Prod.fst, k ∉ acc := fun k hk => hdis k (by simp [hk])
        simp only [secondaryScan, hc, if_false, Bool.false_eq_true, hm,
          ih acc hnd.2 hdis2, List.map_cons]
        simp [hm]

theorem findMatches_matched (km : KeywordManager) (t : String) (ht : t ≠ "") :
    (findMatches km (some t)).matched_keywords =
      secondaryScan (km.secondary_keywords.take 200) (lowerData t)
        (primaryScan km.primary_keywords (lowerData t) [] "secondary").1 := by
  simp [findMatches, ht]

theorem findMatches_prio (km : KeywordManager) (t : String) (ht : t ≠ "") :
    (findMatches km (some t)).keyword_priority =
      (primaryScan km.primary_keywords (lowerData t) [] "secondary").2 := by
  simp [findMatches, ht]

theorem matchKeyword_nil (kw : String) : matchKeyword kw [] = false := by
  unfold matchKeyword
  split
  · simp [hasBoundaryMatch, show List.range 1 = [0] from rfl, boundAt, wordCharAt]
  · rename_i hlen
    have hk : kw.data ≠ [] := by
      intro hdata
      exact hlen (by simp [String.length, hdata])
    simp [containsSub, show List.range 1 = [0] from rfl, occursAt, hk]

theorem mem_matched (km : KeywordManager) (t : String) (x : String) :
    x ∈ (findMatches km (some t)).matched_keywords ↔
      x ∈ scanTerms km ∧ matchKeyword x (lowerData t) = true := by
  by_cases ht : t = ""
  · subst ht
    have h0 : lowerData "" = [] := rfl
    simp [findMatches, h0, matchKeyword_nil]
  · rw [findMatches_matched km t ht, secondaryScan_mem, primaryScan_fst]
    simp only [List.nil_append, List.mem_filter, scanTerms, List.mem_append]
    constructor
    · rintro (⟨h1, h2⟩ | ⟨h1, h2⟩)
      · exact ⟨Or.inl h1, h2⟩
      · exact ⟨Or.inr h1, h2⟩
    · rintro ⟨h1 | h1, h2⟩
      · exact Or.inl ⟨h1, h2⟩
      · exact Or.inr ⟨h1, h2⟩

/-- C2: `matched_keywords` is exactly the scan-order keyword list (primary tier,
then the first 200 secondary terms) filtered by the per-keyword match test, so
it lists the matched terms in the order the scan first finds them, and — since
a built matcher's terms are pairwise distinct — it has no duplicates. -/
theorem find_matches_first_match_order (km : KeywordManager) (t : String)
    (h : (scanTerms km).Nodup) :
    (findMatches km (some t)).matched_keywords =
      (scanTerms km).filter (fun kw => matchKeyword kw (lowerData t)) ∧
    (findMatches km (some t)).matched_keywords.Nodup := by
  have heq : (findMatches km (some t)).matched_keywords =
      (scanTerms km).filter (fun kw => matchKeyword kw (lowerData t)) := by
    by_cases ht : t = ""
    · subst ht
      have h0 : lowerData "" = [] := rfl
      have hz : (findMatches km (some "")).matched_keywords = [] := by simp [findMatches]
      rw [hz, h0, eq_comm, List.filter_eq_nil_iff]
      intro kw _
      simp [matchKeyword_nil]
    · rw [findMatches_matched km t ht, primaryScan_fst, List.nil_append]
      unfold scanTerms at h ⊢
      rw [List.nodup_append] at h
      have hdis2 : ∀ kw ∈ (km.secondary_keywords.take 200).map Prod.fst,
          kw ∉ (km.primary_keywords.map Prod.fst).filter
            (fun kw => matchKeyword kw (lowerData t)) := by
        intro kw hk hmem
        exact h.2.2 (List.mem_filter.mp hmem).1 hk
      rw [secondaryScan_eq _ _ _ h.2.1 hdis2, List.filter_append]
  refine ⟨heq, ?_⟩
  rw [heq]
  exact h.filter _

/-- Witness for C2 at the spec's example: primary `{"bitcoin"}`, secondary
`{"wallet"}`, text `"Best bitcoin wallet in India"`. -/
theorem find_matches_first_match_order_witness :
    (findMatches kmBitcoinWallet (some "Best bitcoin wallet in India")).matched_keywords =
      ["bitcoin", "wallet"] ∧
    (findMatches kmBitcoinWallet (some "Best bitcoin wallet in India")).matched_keywords.Nodup := by
  have h := find_matches_first_match_order kmBitcoinWallet "Best bitcoin wallet in India"
    (by decide)
  exact ⟨h.1.trans (by decide), h.2⟩

/-- C4: `keyword_priority = "primary"` iff some returned matched keyword is a
primary-tier term, and the priority is independent of the competitor and
locale-marker rosters. -/
theorem priority_primary_iff :
    (∀ (km : KeywordManager) (t : Option String),
        (findMatches km t).keyword_priority = "primary" ↔
          ∃ kw, kw ∈ (findMatches km t).matched_keywords ∧
            kw ∈ km.primary_keywords.map Prod.fst) ∧
    (∀ (p s : List (String × Int)) (c₁ i₁ c₂ i₂ : List String) (t : Option String),
        (findMatches ⟨p, s, c₁, i₁⟩ t).keyword_priority =
        (findMatches ⟨p, s, c₂, i₂⟩ t).keyword_priority) := by
  constructor
  · intro km t
    match t with
    | none => simp [findMatches]
    | some t =>
      by_cases ht : t = ""
      · subst ht
        simp [findMatches]
      · rw [findMatches_prio km t ht, primaryScan_snd]
        constructor
        · intro hp
          by_cases ha : (km.primary_keywords.map Prod.fst).any
              (fun kw => matchKeyword kw (lowerData t)) = true
          · obtain ⟨kw, hkw, hmm⟩ := List.any_eq_true.mp ha
            refine ⟨kw, ?_, hkw⟩
            exact (mem_matched km t kw).mpr ⟨List.mem_append_left _ hkw, hmm⟩
          · rw [if_neg ha] at hp
            exact absurd hp (by simp)
        · rintro ⟨kw, hmem, hprim⟩
          have hx := (mem_matched km t kw).mp hmem
          rw [if_pos (List.any_eq_true.mpr ⟨kw, hprim, hx.2⟩)]
  · intro p s c₁ i₁ c₂ i₂ t
    match t with
    | none => rfl
    | some t =>
      by_cases ht : t = ""
      · simp [findMatches, ht]
      · simp [findMatches, ht]

/-- C8: an update whose message timestamp is at or before the last-processed
command timestamp triggers no handling action and leaves the control state
unchanged. -/
theorem stale_command_ignored (chat : String) (now : Int) (st : HandlerState)
    (u : TgUpdate) (h : u.message_time ≤ st.last_command_time) :
    (processUpdate chat now st u).2 = [] ∧
    (processUpdate chat now st u).1.control = st.control := by
  unfold processUpdate
  by_cases h1 : st.processed_update_ids.contains u.update_id = true
  · rw [if_pos h1]
    exact ⟨rfl, rfl⟩
  · rw [if_neg h1]
    by_cases h2 : u.chat_id ≠ chat
    · rw [if_pos h2]
      exact ⟨rfl, rfl⟩
    · rw [if_neg h2,
        if_pos (show u.message_time ≤ (bookkeep st u.update_id).last_command_time from h)]
      exact ⟨rfl, rfl⟩

/-- Witness for C8: a stale `/stop` (message time 50, last command time 100)
produces no action and leaves the running control state alone. -/
theorem stale_command_ignored_witness :
    (processUpdate "42" 7 ⟨0, 100, [], ⟨true, "start", 0⟩⟩ ⟨5, "42", "/stop", 50⟩).2 = [] ∧
    (processUpdate "42" 7 ⟨0, 100, [], ⟨true, "start", 0⟩⟩ ⟨5, "42", "/stop", 50⟩).1.control =
      (⟨0, 100, [], ⟨true, "start", 0⟩⟩ : HandlerState).control :=
  stale_command_ignored "42" 7 ⟨0, 100, [], ⟨true, "start", 0⟩⟩ ⟨5, "42", "/stop", 50⟩
    (by decide)

/-- C9: a non-spam submission whose text yields no keyword and no competitor
match is not marked seen — `_process_submission` returns `False` with the
ledger unchanged, so the item stays eligible for later cycles. -/
theorem no_match_not_marked_seen (km : KeywordManager) (seen : List (String × Int))
    (sub : Submission) (now : Int) (pid : String)
    (hspam : isSpam (subText sub) = false)
    (hkw : (findMatches km (some (subText sub))).matched_keywords = [])
    (hcomp : (findMatches km (some (subText sub))).matched_competitors = []) :
    processSubmission km seen sub now pid = (false, seen) := by
  unfold processSubmission
  by_cases ht : subText sub = ""
  · rw [if_pos ht]
  · rw [if_neg ht, if_neg (by simp [hspam]), if_pos (by simp [hkw, hcomp])]

/-- Witness for C9 at a concrete no-match submission. -/
theorem no_match_not_marked_seen_witness :
    processSubmission kmBitcoinWallet [] ⟨"hello world", ""⟩ 0 "reddit_x" = (false, []) :=
  no_match_not_marked_seen kmBitcoinWallet [] ⟨"hello world", ""⟩ 0 "reddit_x"
    (by decide) (by decide) (by decide)

/-! ## Word-boundary lemmas for C3 -/

theorem occursAt_getElem (pat s : List Char) (i : Nat) (h : occursAt pat s i = true)
    (j : Nat) (hj : j < pat.length) : s[i + j]? = pat[j]? := by
  unfold occursAt at h
  have he : (s.drop i).take pat.length = pat := by simpa using h
  calc s[i + j]? = (s.drop i)[j]? := (List.getElem?_drop s i j).symm
    _ = ((s.drop i).take pat.length)[j]? := (List.getElem?_take_of_lt hj).symm
    _ = pat[j]? := by rw [he]

theorem occursAt_le (pat s : List Char) (i : Nat) (h : occursAt pat s i = true)
    (hne : pat ≠ []) (hi : i ≤ s.length) : i + pat.length ≤ s.length := by
  unfold occursAt at h
  have he : (s.drop i).take pat.length = pat := by simpa using h
  have hlen := congrArg List.length he
  simp only [List.length_take, List.length_drop] at hlen
  have hp : 0 < pat.length := List.length_pos.mpr hne
  omega

theorem boundary_to_claim (pat s : List Char) (he : edgeOk pat = true)
    (hm : hasBoundaryMatch pat s = true) : claimShortOk pat s = true := by
  have hne : pat ≠ [] := by
    intro h0
    rw [h0] at he
    simp [edgeOk] at he
  obtain ⟨a, ha⟩ : ∃ a, pat.head? = some a := by
    cases hh : pat.head? with
    | none => exact absurd (List.head?_eq_none_iff.mp hh) hne
    | some a => exact ⟨a, rfl⟩
  obtain ⟨b, hb⟩ : ∃ b, pat.getLast? = some b := by
    cases hh : pat.getLast? with
    | none => exact absurd (List.getLast?_eq_none_iff.mp hh) hne
    | some b => exact ⟨b, rfl⟩
  have he2 : wordCharB a = true ∧ wordCharB b = true := by
    unfold edgeOk at he
    rw [ha, hb] at he
    have he3 : (wordCharB a && wordCharB b) = true := he
    rw [Bool.and_eq_true] at he3
    exact he3
  unfold hasBoundaryMatch at hm
  obtain ⟨i, hi, hcond⟩ := List.any_eq_true.mp hm
  rw [List.mem_range] at hi
  rw [Bool.and_eq_true, Bool.and_eq_true] at hcond
  obtain ⟨⟨hocc, hb1⟩, hb2⟩ := hcond
  have hplen : 0 < pat.length := List.length_pos.mpr hne
  have hilen : i + pat.length ≤ s.length := occursAt_le pat s i hocc hne (by omega)
  have hgi : s[i]? = some a := by
    have hx := occursAt_getElem pat s i hocc 0 hplen
    rw [Nat.add_zero] at hx
    rw [hx, ← List.head?_eq_getElem?, ha]
  have hwi : wordCharAt s i = true := by
    unfold wordCharAt
    rw [hgi]
    exact he2.1
  have hleft : (if i = 0 then false else wordCharAt s (i - 1)) = false := by
    unfold boundAt at hb1
    rw [bne_iff_ne] at hb1
    rw [hwi] at hb1
    exact Bool.eq_false_iff.mpr hb1
  have hprev : i ≠ 0 → nonAlnumAt s (i - 1) = true := by
    intro h0
    rw [if_neg h0] at hleft
    unfold wordCharAt at hleft
    unfold nonAlnumAt
    cases hgc : s[i - 1]? with
    | none => rfl
    | some c =>
        rw [hgc] at hleft
        unfold wordCharB at hleft
        simp only [Bool.or_eq_false_iff] at hleft
        simp [hleft.1]
  have hgl : s[i + pat.length - 1]? = some b := by
    have hx := occursAt_getElem pat s i hocc (pat.length - 1) (by omega)
    have harith : i + (pat.length - 1) = i + pat.length - 1 := by omega
    rw [harith] at hx
    rw [hx, ← List.getLast?_eq_getElem?, hb]
  have hwl : wordCharAt s (i + pat.length - 1) = true := by
    unfold wordCharAt
    rw [hgl]
    exact he2.2
  have hright : wordCharAt s (i + pat.length) = false := by
    unfold boundAt at hb2
    rw [bne_iff_ne] at hb2
    rw [if_neg (show ¬ (i + pat.length = 0) by omega)] at hb2
    rw [hwl] at hb2
    exact Bool.eq_false_iff.mpr (Ne.symm hb2)
  have hafter : nonAlnumAt s (i + pat.length) = true := by
    unfold nonAlnumAt
    cases hgc : s[i + pat.length]? with
    | none => rfl
    | some c =>
        unfold wordCharAt at hright
        rw [hgc] at hright
        unfold wordCharB at hright
        simp only [Bool.or_eq_false_iff] at hright
        simp [hright.1]
  unfold claimShortOk
  rw [List.any_eq_true]
  refine ⟨i, List.mem_range.mpr hi, ?_⟩
  rw [Bool.and_eq_true, Bool.and_eq_true]
  refine ⟨⟨hocc, ?_⟩, hafter⟩
  by_cases h0 : i = 0
  · simp [h0]
  · rw [hprev h0]
    simp

/-- C3 counterexample: with the two-character keyword `".x"` (accepted by the
keyword builder) the code reports a match in `"a.x"`, although the only
occurrence of `".x"` is immediately preceded by the alphanumeric character
`'a'` — regex `\b` flips polarity at a keyword whose edge character is not a
word character, so the claim's non-alphanumeric-boundary condition is violated. -/
theorem short_keyword_boundary_counterexample :
    ".x" ∈ (findMatches kmDot (some "a.x")).matched_keywords ∧
    claimShortOk (String.data ".x") (lowerData "a.x") = false := by
  constructor
  · decide
  · decide

/-- C3 (amended): for every short keyword (length at most 3) whose first and
last characters are word characters — the shape of every real keyword — a
reported match implies some occurrence in the case-folded text whose adjacent
characters, when they exist, are non-alphanumeric; in particular `"api"` does
not match inside `"rapid"` and does match in `"the api is down"`.  For keywords
of length greater than 3, membership in `matched_keywords` is exactly plain
substring containment in the case-folded text (over the scanned keyword list). -/
theorem short_keyword_boundary_amended :
    (∀ (km : KeywordManager) (t kw : String),
        kw ∈ (findMatches km (some t)).matched_keywords →
        kw.length ≤ 3 →
        edgeOk kw.data = true →
        claimShortOk kw.data (lowerData t) = true) ∧
    (findMatches kmApi (some "rapid")).matched_keywords = [] ∧
    "api" ∈ (findMatches kmApi (some "the api is down")).matched_keywords ∧
    (∀ (km : KeywordManager) (t kw : String),
        ¬ kw.length ≤ 3 →
        (kw ∈ (findMatches km (some t)).matched_keywords ↔
          kw ∈ scanTerms km ∧ containsSub (lowerData t) kw.data = true)) := by
  refine ⟨?_, by decide, by decide, ?_⟩
  · intro km t kw hmem hlen hedge
    have hx := (mem_matched km t kw).mp hmem
    have hmk : hasBoundaryMatch kw.data (lowerData t) = true := by
      have := hx.2
      unfold matchKeyword at this
      rwa [if_pos hlen] at this
    exact boundary_to_claim kw.data (lowerData t) hedge hmk
  · intro km t kw hlen
    rw [mem_matched km t kw]
    unfold matchKeyword
    rw [if_neg hlen]

/-- Witness for the amended C3: applying the boundary direction to `"api"`
matched in `"the api is down"`. -/
theorem short_keyword_boundary_witness :
    claimShortOk (String.data "api") (lowerData "the api is down") = true :=
  short_keyword_boundary_amended.1 kmApi "the api is down" "api"
    (by decide) (by decide) (by decide)

/-! ## Built matchers have duplicate-free terms -/

theorem kwDictStep_of_find_none (d : List (String × Int)) (p : String × Int)
    (hf : d.find? (fun q => q.1 == p.1) = none) : kwDictStep d p = d ++ [p] := by
  unfold kwDictStep
  rw [hf]

theorem kwDictStep_keys_of_find_some (d : List (String × Int)) (p q : String × Int)
    (hf : d.find? (fun q => q.1 == p.1) = some q) :
    (kwDictStep d p).map Prod.fst = d.map Prod.fst := by
  unfold kwDictStep
  rw [hf]
  show List.map Prod.fst
      (if q.2 < p.2 then List.map (fun r => if r.1 == p.1 then p else r) d else d) =
    List.map Prod.fst d
  split
  · rw [List.map_map]
    apply List.map_congr_left
    intro r hr
    by_cases hrp : (r.1 == p.1) = true
    · simp only [Function.comp_apply]
      rw [if_pos hrp]
      exact (eq_of_beq hrp).symm
    · simp only [Function.comp_apply]
      rw [if_neg hrp]
  · rfl

theorem kwDictStep_keys_nodup (d : List (String × Int)) (p : String × Int)
    (h : (d.map Prod.fst).Nodup) : ((kwDictStep d p).map Prod.fst).Nodup := by
  cases hf : d.find? (fun q => q.1 == p.1) with
  | none =>
      rw [kwDictStep_of_find_none d p hf, List.map_append, List.nodup_append]
      refine ⟨h, List.nodup_singleton _, ?_⟩
      rw [List.find?_eq_none] at hf
      intro x hx hx2
      simp only [List.map_cons, List.map_nil, List.mem_singleton] at hx2
      subst hx2
      obtain ⟨q, hq, hq2⟩ := List.mem_map.mp hx
      exact hf q hq (by simp [hq2])
  | some q =>
      rw [kwDictStep_keys_of_find_some d p q hf]
      exact h

theorem buildKwDict_keys_nodup (pairs : List (String × Int)) :
    ((buildKwDict pairs).map Prod.fst).Nodup := by
  have hgen : ∀ (ps d : List (String × Int)),
      (d.map Prod.fst).Nodup → ((ps.foldl kwDictStep d).map Prod.fst).Nodup := by
    intro ps
    induction ps with
    | nil => intro d h; exact h
    | cons p rest ih => intro d h; exact ih _ (kwDictStep_keys_nodup d p h)
  exact hgen pairs [] (by simp)

theorem processKeywords_keys_nodup (rows : List (String × Int)) :
    ((processKeywords rows).map Prod.fst).Nodup := by
  unfold processKeywords
  have hperm := List.mergeSort_perm (buildKwDict (normalizeRows rows))
    (fun a b => decide (b.2 ≤ a.2))
  exact ((hperm.map Prod.fst).nodup_iff).mpr (buildKwDict_keys_nodup _)

/-- Every matcher produced by `_process_keywords` satisfies the
duplicate-free-terms hypothesis of the matched-keywords claims. -/
theorem builtKeywordManager_scanTerms_nodup (rows : List (String × Int)) :
    (scanTerms (builtKeywordManager rows)).Nodup := by
  have h := processKeywords_keys_nodup rows
  have h1 : (List.take 200 (List.drop 10 (processKeywords rows))).Sublist
      (List.drop 10 (processKeywords rows)) := List.take_sublist _ _
  have h2 := List.Sublist.append_left h1 (List.take 10 (processKeywords rows))
  rw [List.take_append_drop] at h2
  have hmap := h2.map Prod.fst
  unfold scanTerms builtKeywordManager mkKeywordManager
  rw [← List.map_append]
  exact List.Nodup.sublist hmap h
